import Mathlib

/-!
Verification of the two utilities in `CLIAI/claude-code-permissions-allow-gh-readonly`:
`claude_settings_merger.py` (merge permission lists of several Claude settings
JSON files) and `md_to_json_converter.py` (extract backtick-quoted patterns from
markdown bullet lists and emit the permissions JSON document).

The Python data is modelled with a small heap: JSON objects (Python `dict`s) are
mutable objects identified by addresses into a heap, because
`merge_settings_files` performs a *shallow* `dict.copy()` and then assigns into
the nested `permissions` dict, which aliasing makes observable.  JSON values are
the inductive `PyVal`; a `dict` is an association list with Python's
insertion-order/replace-in-place update semantics.
-/

namespace CCPerms

/-- A Python/JSON value.  A dict is not stored inline: `dictRef a` points at
address `a` of the heap, so that shared mutable dicts are modelled faithfully. -/
inductive PyVal where
  | str (s : String)
  | int (n : Int)
  | bool (b : Bool)
  | null
  | list (l : List PyVal)
  | dictRef (a : Nat)

/-- The contents of one Python dict: key/value pairs in insertion order. -/
abbrev Dict := List (String × PyVal)

/-- The heap of allocated dicts; an address is an index, allocation appends. -/
abbrev Heap := List Dict

/-- Python `d[k]` / `k in d` lookup on a dict (keys are unique in practice;
the first binding is the one Python would hold). -/
def dget (d : Dict) (k : String) : Option PyVal :=
  match d with
  | [] => none
  | (k', v) :: t => if k' = k then some v else dget t k

/-- Python `d[k] = v`: replace the value in place if the key is present
(keeping its position), otherwise append the new binding at the end. -/
def dset (d : Dict) (k : String) (v : PyVal) : Dict :=
  match d with
  | [] => [(k, v)]
  | (k', v') :: t => if k' = k then (k, v) :: t else (k', v') :: dset t k v

/-- Dereference an address.  Out-of-range addresses (which cannot arise from
well-formed allocation) read as the empty dict. -/
def heapGet (h : Heap) (a : Nat) : Dict :=
  h.getD a []

/-- Overwrite the dict stored at an address. -/
def heapSet (h : Heap) (a : Nat) (d : Dict) : Heap :=
  h.set a d

/- ---------------------------------------------------------------------------
`merge_permission_lists` (claude_settings_merger.py, lines 34-45):

    seen = set()
    result = []
    for permission_list in lists:
        for item in permission_list:
            if item not in seen:
                seen.add(item)
                result.append(item)
    return result

The inner `for item in permission_list` loop is `dedupGo`, threading the
`seen` set (modelled as a list, membership only) and the `result` list; the
outer `for permission_list in lists` loop is `mplGo`.
--------------------------------------------------------------------------- -/

/-- One pass of the dedup loop over a single list, threading `(seen, result)`. -/
def dedupGo {α : Type} [DecidableEq α] : List α → List α → List α → List α × List α
  | seen, acc, [] => (seen, acc)
  | seen, acc, x :: xs =>
    if x ∈ seen then dedupGo seen acc xs else dedupGo (x :: seen) (acc ++ [x]) xs

/-- The outer loop of `merge_permission_lists` over the list of lists. -/
def mplGo {α : Type} [DecidableEq α] : List α × List α → List (List α) → List α × List α
  | st, [] => st
  | st, l :: ls => mplGo (dedupGo st.1 st.2 l) ls

/-- `merge_permission_lists(lists)`: order-preserving deduplicating merge. -/
def merge_permission_lists {α : Type} [DecidableEq α] (lists : List (List α)) : List α :=
  (mplGo ([], []) lists).2

/-- Index of the first occurrence of `x` (length of the list when absent);
used to state "ordered by first occurrence". -/
def firstIdx {α : Type} [DecidableEq α] (x : α) : List α → Nat
  | [] => 0
  | y :: t => if y = x then 0 else firstIdx x t + 1

/- Lemmas about the dedup loops. -/

theorem dedupGo_append {α : Type} [DecidableEq α] (l₁ l₂ : List α) :
    ∀ seen acc : List α,
      dedupGo seen acc (l₁ ++ l₂) = dedupGo (dedupGo seen acc l₁).1 (dedupGo seen acc l₁).2 l₂ := by
  induction l₁ with
  | nil => intro seen acc; simp [dedupGo]
  | cons x xs ih =>
    intro seen acc
    by_cases hx : x ∈ seen
    · simpa [dedupGo, hx] using ih seen acc
    · simpa [dedupGo, hx] using ih (x :: seen) (acc ++ [x])

theorem mplGo_eq_flatten {α : Type} [DecidableEq α] (lists : List (List α)) :
    ∀ st : List α × List α, mplGo st lists = dedupGo st.1 st.2 lists.flatten := by
  induction lists with
  | nil => intro st; simp [mplGo, dedupGo]
  | cons l ls ih =>
    intro st
    simp only [mplGo, List.flatten_cons, dedupGo_append]
    exact ih _

theorem merge_permission_lists_eq_dedup {α : Type} [DecidableEq α] (lists : List (List α)) :
    merge_permission_lists lists = (dedupGo [] [] lists.flatten).2 := by
  simp [merge_permission_lists, mplGo_eq_flatten]

theorem dedupGo_acc {α : Type} [DecidableEq α] (l : List α) :
    ∀ seen acc : List α, (dedupGo seen acc l).2 = acc ++ (dedupGo seen [] l).2 := by
  induction l with
  | nil => intro seen acc; simp [dedupGo]
  | cons x xs ih =>
    intro seen acc
    by_cases hx : x ∈ seen
    · simpa [dedupGo, hx] using ih seen acc
    · simp only [dedupGo, hx, if_false]
      rw [ih (x :: seen) (acc ++ [x]), ih (x :: seen) ([] ++ [x])]
      simp

theorem mem_dedupGo {α : Type} [DecidableEq α] (l : List α) :
    ∀ seen : List α, ∀ y : α, y ∈ (dedupGo seen [] l).2 ↔ y ∈ l ∧ y ∉ seen := by
  induction l with
  | nil => intro seen y; simp [dedupGo]
  | cons x xs ih =>
    intro seen y
    by_cases hx : x ∈ seen
    · rw [dedupGo, if_pos hx, ih]
      constructor
      · rintro ⟨hy, hys⟩; exact ⟨List.mem_cons_of_mem _ hy, hys⟩
      · rintro ⟨hy, hys⟩
        rcases List.mem_cons.1 hy with rfl | hy
        · exact absurd hx hys
        · exact ⟨hy, hys⟩
    · rw [dedupGo, if_neg hx, dedupGo_acc, List.nil_append]
      constructor
      · intro hy
        rcases List.mem_cons.1 hy with rfl | hy
        · exact ⟨List.mem_cons_self _ _, hx⟩
        · rcases (ih _ _).1 hy with ⟨h1, h2⟩
          refine ⟨List.mem_cons_of_mem _ h1, fun hs => h2 (List.mem_cons_of_mem _ hs)⟩
      · rintro ⟨hy, hys⟩
        rcases List.mem_cons.1 hy with rfl | hy
        · exact List.mem_cons_self _ _
        · by_cases hyx : y = x
          · subst hyx; exact List.mem_cons_self _ _
          · refine List.mem_cons_of_mem _ ((ih _ _).2 ⟨hy, ?_⟩)
            intro hs
            rcases List.mem_cons.1 hs with h | h
            · exact hyx h
            · exact hys h

theorem nodup_dedupGo {α : Type} [DecidableEq α] (l : List α) :
    ∀ seen : List α, (dedupGo seen [] l).2.Nodup := by
  induction l with
  | nil => intro seen; simp [dedupGo]
  | cons x xs ih =>
    intro seen
    by_cases hx : x ∈ seen
    · rw [dedupGo, if_pos hx]; exact ih seen
    · rw [dedupGo, if_neg hx, dedupGo_acc, List.nil_append]
      refine List.nodup_cons.2 ⟨?_, ih (x :: seen)⟩
      intro hmem
      exact ((mem_dedupGo xs (x :: seen) x).1 hmem).2 (List.mem_cons_self _ _)

theorem firstIdx_cons_self {α : Type} [DecidableEq α] (x : α) (l : List α) :
    firstIdx x (x :: l) = 0 := by
  simp [firstIdx]

theorem firstIdx_cons_ne {α : Type} [DecidableEq α] (x y : α) (l : List α) (h : y ≠ x) :
    firstIdx x (y :: l) = firstIdx x l + 1 := by
  simp [firstIdx, h]

theorem pairwise_mono_mem {α : Type} {l : List α} {R S : α → α → Prop}
    (h : ∀ a b, a ∈ l → b ∈ l → R a b → S a b) (hp : l.Pairwise R) : l.Pairwise S :=
  List.Pairwise.imp_of_mem (fun ha hb r => h _ _ ha hb r) hp

theorem pairwise_firstIdx_dedupGo {α : Type} [DecidableEq α] (l : List α) :
    ∀ seen : List α,
      (dedupGo seen [] l).2.Pairwise (fun a b => firstIdx a l < firstIdx b l) := by
  induction l with
  | nil => intro seen; simp [dedupGo]
  | cons x xs ih =>
    intro seen
    by_cases hx : x ∈ seen
    · rw [dedupGo, if_pos hx]
      refine pairwise_mono_mem ?_ (ih seen)
      intro a b ha hb hab
      have ha' := (mem_dedupGo xs seen a).1 ha
      have hb' := (mem_dedupGo xs seen b).1 hb
      have hax : a ≠ x := fun h => ha'.2 (h ▸ hx)
      have hbx : b ≠ x := fun h => hb'.2 (h ▸ hx)
      rw [firstIdx_cons_ne a x xs (Ne.symm hax), firstIdx_cons_ne b x xs (Ne.symm hbx)]
      omega
    · rw [dedupGo, if_neg hx, dedupGo_acc, List.nil_append]
      refine List.pairwise_cons.2 ⟨?_, ?_⟩
      · intro b hb
        have hb' := (mem_dedupGo xs (x :: seen) b).1 hb
        have hbx : b ≠ x := fun h => hb'.2 (h ▸ List.mem_cons_self _ _)
        rw [firstIdx_cons_self, firstIdx_cons_ne b x xs (Ne.symm hbx)]
        omega
      · refine pairwise_mono_mem ?_ (ih (x :: seen))
        intro a b ha hb hab
        have ha' := (mem_dedupGo xs (x :: seen) a).1 ha
        have hb' := (mem_dedupGo xs (x :: seen) b).1 hb
        have hax : a ≠ x := fun h => ha'.2 (h ▸ List.mem_cons_self _ _)
        have hbx : b ≠ x := fun h => hb'.2 (h ▸ List.mem_cons_self _ _)
        rw [firstIdx_cons_ne a x xs (Ne.symm hax), firstIdx_cons_ne b x xs (Ne.symm hbx)]
        omega

theorem dedupGo_of_nodup {α : Type} [DecidableEq α] (l : List α) :
    ∀ seen : List α, (∀ x ∈ l, x ∉ seen) → l.Nodup → (dedupGo seen [] l).2 = l := by
  induction l with
  | nil => intro seen _ _; simp [dedupGo]
  | cons x xs ih =>
    intro seen hdisj hnd
    have hx : x ∉ seen := hdisj x (List.mem_cons_self _ _)
    rw [dedupGo, if_neg hx, dedupGo_acc, List.nil_append]
    have : (dedupGo (x :: seen) [] xs).2 = xs := by
      refine ih (x :: seen) ?_ (List.nodup_cons.1 hnd).2
      intro y hy hmem
      rcases List.mem_cons.1 hmem with rfl | h
      · exact (List.nodup_cons.1 hnd).1 hy
      · exact hdisj y (List.mem_cons_of_mem _ hy) h
    rw [this]; simp

/- ---------------------------------------------------------------------------
Heap and dict lemmas.
--------------------------------------------------------------------------- -/

theorem dget_dset_same (d : Dict) (k : String) (v : PyVal) :
    dget (dset d k v) k = some v := by
  induction d with
  | nil => simp [dget, dset]
  | cons kv t ih =>
    by_cases hk : kv.1 = k
    · simp [dget, dset, hk]
    · simp [dget, dset, hk, ih]

theorem dget_dset_ne (d : Dict) (k k' : String) (v : PyVal) (h : k ≠ k') :
    dget (dset d k v) k' = dget d k' := by
  induction d with
  | nil => simp [dget, dset, h]
  | cons kv t ih =>
    by_cases hk : kv.1 = k
    · simp [dget, dset, hk, h]
    · simp only [dset, hk, if_false, dget, ih]

theorem heapGet_append_lt (h l : Heap) (a : Nat) (ha : a < h.length) :
    heapGet (h ++ l) a = heapGet h a := by
  induction h generalizing a with
  | nil => simp at ha
  | cons d t ih =>
    cases a with
    | zero => simp [heapGet]
    | succ a =>
      have : a < t.length := by simpa using ha
      simpa [heapGet, List.getD] using ih a this

theorem heapGet_append_self (h : Heap) (d : Dict) (l : Heap) :
    heapGet (h ++ d :: l) h.length = d := by
  induction h with
  | nil => simp [heapGet]
  | cons e t ih => simpa [heapGet, List.getD] using ih

theorem heapGet_set_self (h : Heap) (a : Nat) (d : Dict) (ha : a < h.length) :
    heapGet (h.set a d) a = d := by
  induction h generalizing a with
  | nil => simp at ha
  | cons e t ih =>
    cases a with
    | zero => simp [heapGet]
    | succ a =>
      have : a < t.length := by simpa using ha
      simpa [heapGet, List.getD] using ih a this

theorem heapGet_set_ne (h : Heap) (a b : Nat) (d : Dict) (hab : a ≠ b) :
    heapGet (h.set a d) b = heapGet h b := by
  induction h generalizing a b with
  | nil => simp [heapGet]
  | cons e t ih =>
    cases a with
    | zero =>
      cases b with
      | zero => exact absurd rfl hab
      | succ b => simp [heapGet, List.getD]
    | succ a =>
      cases b with
      | zero => simp [heapGet, List.getD]
      | succ b =>
        have : a ≠ b := fun hc => hab (by simp [hc])
        simpa [heapGet, List.getD] using ih a b this

/- ---------------------------------------------------------------------------
`merge_settings_files` (claude_settings_merger.py, lines 48-77), taken - as
the spec does - at the level of the already parsed documents: the documents
live in the heap and the argument is the list of their addresses, in file
order.  `load_json_file` (pure I/O and fatal-exit error handling) is the
callers' concern and produces, for each input file, a fresh document sharing
no structure with the others.

    if not files:
        raise ValueError("No files provided to merge")
    settings_list = [load_json_file(f) for f in files]
    merged = settings_list[0].copy()
    allow_lists = [] ; deny_lists = []
    for settings in settings_list:
        permissions = settings.get('permissions', {})
        if 'allow' in permissions: allow_lists.append(permissions['allow'])
        if 'deny' in permissions: deny_lists.append(permissions['deny'])
    if 'permissions' not in merged:
        merged['permissions'] = {}
    merged['permissions']['allow'] = merge_permission_lists(allow_lists)
    merged['permissions']['deny'] = merge_permission_lists(deny_lists)
    return merged
--------------------------------------------------------------------------- -/

/-- String payload of a `PyVal`, when it is one.  The source's type
annotations declare the permission lists as `List[str]`. -/
def asString : PyVal → Option String
  | PyVal.str s => some s
  | _ => none

/-- The string payloads of a list of values, when they are all strings
(the declared element type of the permission lists). -/
def asStrings : List PyVal → Option (List String)
  | [] => some []
  | v :: t =>
    match asString v, asStrings t with
    | some s, some l => some (s :: l)
    | _, _ => none

/-- `settings.get('permissions', {})[key]` when present: the list a document
contributes for `key` (`"allow"` or `"deny"`).  `none` when the document has
no `permissions` dict or the dict has no such key.  Values that are not a
dict under `"permissions"`, or not a list of strings under `key`, fall
outside the PermissionDocument data model (see `wfDoc`) and also yield
`none` here. -/
def permList (h : Heap) (key : String) (a : Nat) : Option (List String) :=
  match dget (heapGet h a) "permissions" with
  | some (PyVal.dictRef p) =>
    match dget (heapGet h p) key with
    | some (PyVal.list l) => asStrings l
    | _ => none
  | _ => none

/-- The PermissionDocument shape (spec section 3): if the document has a
`permissions` field its value is a dict (held at a valid address), and that
dict's `allow`/`deny` fields, when present, are lists of strings. -/
def wfDoc (h : Heap) (a : Nat) : Bool :=
  match dget (heapGet h a) "permissions" with
  | none => true
  | some (PyVal.dictRef p) =>
    decide (p < h.length) &&
    (match dget (heapGet h p) "allow" with
     | none => true
     | some (PyVal.list l) => (asStrings l).isSome
     | some _ => false) &&
    (match dget (heapGet h p) "deny" with
     | none => true
     | some (PyVal.list l) => (asStrings l).isSome
     | some _ => false)
  | some _ => false

/-- The body of `merge_settings_files` after the emptiness check, for a
non-empty document list with head `a0`.  Returns the heap after the call and
the address of `merged`. -/
def merge_core (h : Heap) (a0 : Nat) (docs : List Nat) : Heap × Nat :=
  let allow_lists := docs.filterMap (permList h "allow")
  let deny_lists := docs.filterMap (permList h "deny")
  let m := h.length
  let h1 := h ++ [heapGet h a0]
  let st :=
    match dget (heapGet h1 m) "permissions" with
    | some (PyVal.dictRef p) => (h1, p)
    | _ =>
      let p := h1.length
      let h2 := h1 ++ [[]]
      (heapSet h2 m (dset (heapGet h2 m) "permissions" (PyVal.dictRef p)), p)
  let h3 := heapSet st.1 st.2 (dset (heapGet st.1 st.2) "allow"
      (PyVal.list ((merge_permission_lists allow_lists).map PyVal.str)))
  let h4 := heapSet h3 st.2 (dset (heapGet h3 st.2) "deny"
      (PyVal.list ((merge_permission_lists deny_lists).map PyVal.str)))
  (h4, m)

/-- `merge_settings_files(files)` on the parsed documents: `ValueError` for an
empty input list, otherwise the merged document (and the heap after the
call, which records the in-place updates). -/
def merge_settings_files (h : Heap) (docs : List Nat) : Except String (Heap × Nat) :=
  match docs with
  | [] => Except.error "No files provided to merge"
  | a0 :: _ => Except.ok (merge_core h a0 docs)

/- ---------------------------------------------------------------------------
md_to_json_converter.py
--------------------------------------------------------------------------- -/

/-- The whitespace characters of Python's `str.strip()` and of `\s` in a
`re` pattern over `str` (ASCII whitespace, the C1 separator controls, NEL
and NBSP; rarer non-ASCII Unicode space characters are outside the model and
do not occur in permission files). -/
def isPySpace (c : Char) : Bool :=
  c = ' ' || c = '\t' || c = '\n' || c = '\r' || c = Char.ofNat 11 || c = Char.ofNat 12 ||
  c = Char.ofNat 28 || c = Char.ofNat 29 || c = Char.ofNat 30 || c = Char.ofNat 31 ||
  c = Char.ofNat 133 || c = Char.ofNat 160

/-- The backquote character, U+0060. -/
def backquote : Char := Char.ofNat 96

/-- Python `line.strip()`: drop leading and trailing whitespace. -/
def pyStrip (l : List Char) : List Char :=
  ((l.dropWhile isPySpace).reverse.dropWhile isPySpace).reverse

/-- The regex of `parse_markdown_file` (line 24),
`re.match(r'^[\*\-]\s+\`([^\`]+)\`', line.strip())`, as a deterministic
matcher on the stripped characters.  `re.match` anchors at the start and
ignores trailing text.  Greedy `\s+` stops exactly at the first
non-whitespace character (which must then be the opening backquote, a
non-whitespace character), and greedy `[^\`]+` stops exactly at the first
backquote (which closes the quote), so neither class requires backtracking
and the runs are the `takeWhile` prefixes. -/
def matchBullet : List Char → Option String
  | [] => none
  | c0 :: rest =>
    if c0 = '*' ∨ c0 = '-' then
      if (rest.takeWhile isPySpace).isEmpty then none
      else
        match rest.dropWhile isPySpace with
        | [] => none
        | c1 :: rest2 =>
          if c1 = backquote then
            match rest2.dropWhile (fun c => ¬ c = backquote) with
            | [] => none
            | _ :: _ =>
              if (rest2.takeWhile (fun c => ¬ c = backquote)).isEmpty then none
              else some (String.mk (rest2.takeWhile (fun c => ¬ c = backquote)))
          else none
    else none

/-- Capture of one line: strip, then match the bullet regex. -/
def bulletCapture (line : String) : Option String :=
  matchBullet (pyStrip line.data)

/-- `parse_markdown_file` (lines 17-29) on the lines of the file (as
delivered by Python text-mode line iteration): collect the group-1 captures
of the matching lines, in line order; non-matching lines are skipped. -/
def parse_markdown_file (lines : List String) : List String :=
  lines.filterMap bulletCapture

/-- `create_permissions_json(patterns)` (lines 32-47): deduplicate the
patterns with the same seen-set loop as `merge_permission_lists`, then build
`{"permissions": {"allow": unique_permissions, "deny": []}}` (two fresh
dicts on the heap; the returned address is the outer dict's). -/
def create_permissions_json (h : Heap) (patterns : List String) : Heap × Nat :=
  let unique_permissions := (dedupGo [] [] patterns).2
  let p := h.length
  let h1 := h ++ [[("allow", PyVal.list (unique_permissions.map PyVal.str)),
                   ("deny", PyVal.list [])]]
  (h1 ++ [[("permissions", PyVal.dictRef p)]], h1.length)

/-- The extractor pipeline of `process_file`: `parse_markdown_file` followed
by the deduplication inside `create_permissions_json`; its value is the
`allow` list of the emitted document. -/
def extract_pipeline (lines : List String) : List String :=
  (dedupGo [] [] (parse_markdown_file lines)).2

/- ---------------------------------------------------------------------------
Backup-name selection in `main` (claude_settings_merger.py, lines 169-182),
with filesystem existence supplied as a predicate `ex` and the unbounded
`while True` search bounded by an explicit fuel:

    if args.output.exists() and not (args.no_backup or args.force):
        backup_path = args.output.with_suffix(args.output.suffix + '.bak')
        if backup_path.exists():
            idx = 1
            while True:
                candidate = args.output.with_suffix(args.output.suffix + f'.bak.{idx}')
                if not candidate.exists():
                    backup_path = candidate
                    break
                idx += 1
        shutil.copy2(args.output, backup_path)

(`p.with_suffix(p.suffix + e)` re-attaches the path's own suffix, so the
result is the path with `e` appended.)
--------------------------------------------------------------------------- -/

/-- The candidate backup names, in probe order: `<path>.bak`, `<path>.bak.1`,
`<path>.bak.2`, ... -/
def backup_candidate (output : String) : Nat → String
  | 0 => output ++ ".bak"
  | Nat.succ n => output ++ ".bak." ++ toString (n + 1)

/-- The `while True` loop: probe `<path>.bak.<idx>`, `<path>.bak.<idx+1>`,
... until a free name is found, giving up (`none`) after `fuel` probes. -/
def find_backup (output : String) (ex : String → Bool) : Nat → Nat → Option String
  | 0, _ => none
  | Nat.succ fuel, idx =>
    if ex (output ++ ".bak." ++ toString idx) then find_backup output ex fuel (idx + 1)
    else some (output ++ ".bak." ++ toString idx)

/-- The backup name the combiner copies the existing output file to:
`<path>.bak` when free, otherwise the first free `<path>.bak.<n>`. -/
def choose_backup (output : String) (ex : String → Bool) (fuel : Nat) : Option String :=
  if ex (output ++ ".bak") then find_backup output ex fuel 1
  else some (output ++ ".bak")

/-- Guard of the backup block (line 170): the output path exists and neither
`--no-backup` nor `-f` (alias `--force`) was given. -/
def wants_backup (output_exists no_backup force : Bool) : Bool :=
  output_exists && !(no_backup || force)

/- ---------------------------------------------------------------------------
File contents written by the two utilities, as functions of the serialized
document text (serialization itself - `json.dumps` / `json.dump` - is opaque
here; only what surrounds it is modelled).
--------------------------------------------------------------------------- -/

/-- Content the combiner writes to the `-o` (`--output`) file (lines 184-187):
`f.write(output); f.write('\n')`. -/
def combiner_file_content (output : String) : String :=
  output ++ "\n"

/-- Content `process_file` writes to the sibling `.json` file (lines 61-63):
`json.dump(permissions_data, f, indent=2)` writes exactly the serialization,
with nothing appended. -/
def extractor_file_content (serialized : String) : String :=
  serialized

/- ---------------------------------------------------------------------------
Master lemmas: the exact result of `merge_core`, by case on whether the
first document already has a `permissions` field.
--------------------------------------------------------------------------- -/

theorem merge_core_eq_present (h : Heap) (a0 : Nat) (docs : List Nat) (p0 : Nat)
    (hp : dget (heapGet h a0) "permissions" = some (PyVal.dictRef p0))
    (hb : p0 < h.length) :
    merge_core h a0 docs =
      ((h ++ [heapGet h a0]).set p0
        (dset (dset (heapGet h p0) "allow"
            (PyVal.list ((merge_permission_lists
              (docs.filterMap (permList h "allow"))).map PyVal.str)))
          "deny"
          (PyVal.list ((merge_permission_lists
            (docs.filterMap (permList h "deny"))).map PyVal.str))),
       h.length) := by
  have e1 : heapGet (h ++ [heapGet h a0]) h.length = heapGet h a0 :=
    heapGet_append_self h _ []
  have e2 : heapGet (h ++ [heapGet h a0]) p0 = heapGet h p0 :=
    heapGet_append_lt h _ p0 hb
  have hb1 : p0 < (h ++ [heapGet h a0]).length := by simp; omega
  unfold merge_core
  simp only [e1, hp, heapSet, e2, heapGet_set_self _ p0 _ hb1, List.set_set]

theorem merge_core_eq_absent (h : Heap) (a0 : Nat) (docs : List Nat)
    (hp : dget (heapGet h a0) "permissions" = none) :
    merge_core h a0 docs =
      (((h ++ [heapGet h a0] ++ [[]]).set h.length
          (dset (heapGet h a0) "permissions" (PyVal.dictRef (h.length + 1)))).set
         (h.length + 1)
         [("allow", PyVal.list ((merge_permission_lists
             (docs.filterMap (permList h "allow"))).map PyVal.str)),
          ("deny", PyVal.list ((merge_permission_lists
            (docs.filterMap (permList h "deny"))).map PyVal.str))],
       h.length) := by
  have e1 : heapGet (h ++ [heapGet h a0]) h.length = heapGet h a0 :=
    heapGet_append_self h _ []
  have e2 : heapGet (h ++ [heapGet h a0] ++ [[]]) h.length = heapGet h a0 := by
    rw [heapGet_append_lt _ _ h.length (by simp), e1]
  have e3 : heapGet (h ++ [heapGet h a0] ++ [[]]) (h.length + 1) = [] := by
    have : (h ++ [heapGet h a0]).length = h.length + 1 := by simp
    simpa [this] using heapGet_append_self (h ++ [heapGet h a0]) [] []
  have e4 : heapGet
      ((h ++ [heapGet h a0] ++ [[]]).set h.length
        (dset (heapGet h a0) "permissions" (PyVal.dictRef (h.length + 1))))
      (h.length + 1) = [] := by
    rw [heapGet_set_ne _ _ _ _ (by omega), e3]
  have hlen : (h ++ [heapGet h a0]).length = h.length + 1 := by simp
  have hb1 : h.length + 1 <
      ((h ++ [heapGet h a0] ++ [[]]).set h.length
        (dset (heapGet h a0) "permissions" (PyVal.dictRef (h.length + 1)))).length := by
    simp
  unfold merge_core
  simp only [e1, hp, heapSet, hlen, e2, e4, heapGet_set_self _ _ _ hb1, List.set_set]
  simp [dset]

/- ---------------------------------------------------------------------------
C1: the List Deduplicator.
--------------------------------------------------------------------------- -/

/-- Claim C1: `merge_permission_lists` returns the distinct strings of its
inputs, each exactly once (no duplicates, exactly the members of the
concatenation), ordered by first occurrence across all inputs in argument
order; in particular on `[["a","b","a"],["b","c"]]` it returns
`["a","b","c"]`. -/
theorem C1_merge_permission_lists_dedup (lists : List (List String)) :
    (merge_permission_lists lists).Nodup ∧
    (∀ s : String, s ∈ merge_permission_lists lists ↔ s ∈ lists.flatten) ∧
    (merge_permission_lists lists).Pairwise
      (fun a b => firstIdx a lists.flatten < firstIdx b lists.flatten) ∧
    merge_permission_lists [["a", "b", "a"], ["b", "c"]] = ["a", "b", "c"] := by
  rw [merge_permission_lists_eq_dedup]
  refine ⟨nodup_dedupGo _ _, ?_, pairwise_firstIdx_dedupGo _ _, by decide⟩
  intro s
  rw [mem_dedupGo]
  simp

/- ---------------------------------------------------------------------------
C4: the "no input" error.
--------------------------------------------------------------------------- -/

/-- Claim C4: `merge_settings_files` fails with the "no input" error
(`ValueError("No files provided to merge")`) exactly when the document list
is empty: the error is returned for the empty list, and never for a
non-empty one. -/
theorem C4_no_input_error (h : Heap) (docs : List Nat) :
    merge_settings_files h docs = Except.error "No files provided to merge" ↔ docs = [] := by
  cases docs with
  | nil => simp [merge_settings_files]
  | cons a0 rest => simp [merge_settings_files]

/- ---------------------------------------------------------------------------
C2: fields of the merged document.
--------------------------------------------------------------------------- -/

/-- Claim C2: on a non-empty list of (valid, well-formed) parsed documents,
`merge_settings_files` returns a document whose `permissions.allow` is the
Deduplicator applied, in input order, to the `allow` lists of exactly those
documents that define one (`permList`), likewise `permissions.deny`, and
whose every other top-level field equals the first document's field. -/
theorem C2_merge_fields (h : Heap) (a0 : Nat) (rest : List Nat)
    (hval : ∀ a ∈ a0 :: rest, a < h.length)
    (hwf : ∀ a ∈ a0 :: rest, wfDoc h a = true) :
    ∃ h' q,
      merge_settings_files h (a0 :: rest) = Except.ok (h', h.length) ∧
      dget (heapGet h' h.length) "permissions" = some (PyVal.dictRef q) ∧
      dget (heapGet h' q) "allow" =
        some (PyVal.list ((merge_permission_lists
          ((a0 :: rest).filterMap (permList h "allow"))).map PyVal.str)) ∧
      dget (heapGet h' q) "deny" =
        some (PyVal.list ((merge_permission_lists
          ((a0 :: rest).filterMap (permList h "deny"))).map PyVal.str)) ∧
      ∀ k, k ≠ "permissions" → dget (heapGet h' h.length) k = dget (heapGet h a0) k := by
  have hwa0 := hwf a0 (List.mem_cons_self a0 rest)
  cases hd : dget (heapGet h a0) "permissions" with
  | none =>
    refine ⟨((h ++ [heapGet h a0] ++ [[]]).set h.length
        (dset (heapGet h a0) "permissions" (PyVal.dictRef (h.length + 1)))).set
          (h.length + 1)
          [("allow", PyVal.list ((merge_permission_lists
              ((a0 :: rest).filterMap (permList h "allow"))).map PyVal.str)),
           ("deny", PyVal.list ((merge_permission_lists
             ((a0 :: rest).filterMap (permList h "deny"))).map PyVal.str))],
      h.length + 1, ?_, ?_, ?_, ?_, ?_⟩
    · show Except.ok (merge_core h a0 (a0 :: rest)) = _
      rw [merge_core_eq_absent h a0 (a0 :: rest) hd]
    · rw [heapGet_set_ne _ _ _ _ (by omega), heapGet_set_self _ _ _ (by simp),
        dget_dset_same]
    · rw [heapGet_set_self _ _ _ (by simp)]
      simp [dget]
    · rw [heapGet_set_self _ _ _ (by simp)]
      simp [dget]
    · intro k hk
      rw [heapGet_set_ne _ _ _ _ (by omega), heapGet_set_self _ _ _ (by simp),
        dget_dset_ne _ _ _ _ (Ne.symm hk)]
  | some v =>
    cases v with
    | str s => exact absurd (by simpa only [wfDoc, hd] using hwa0) Bool.false_ne_true
    | int n => exact absurd (by simpa only [wfDoc, hd] using hwa0) Bool.false_ne_true
    | bool b => exact absurd (by simpa only [wfDoc, hd] using hwa0) Bool.false_ne_true
    | null => exact absurd (by simpa only [wfDoc, hd] using hwa0) Bool.false_ne_true
    | list l => exact absurd (by simpa only [wfDoc, hd] using hwa0) Bool.false_ne_true
    | dictRef p0 =>
      have hb : p0 < h.length := by
        simp only [wfDoc, hd, Bool.and_eq_true, decide_eq_true_eq] at hwa0
        exact hwa0.1.1
      refine ⟨(h ++ [heapGet h a0]).set p0
          (dset (dset (heapGet h p0) "allow"
              (PyVal.list ((merge_permission_lists
                ((a0 :: rest).filterMap (permList h "allow"))).map PyVal.str)))
            "deny"
            (PyVal.list ((merge_permission_lists
              ((a0 :: rest).filterMap (permList h "deny"))).map PyVal.str))),
        p0, ?_, ?_, ?_, ?_, ?_⟩
      · show Except.ok (merge_core h a0 (a0 :: rest)) = _
        rw [merge_core_eq_present h a0 (a0 :: rest) p0 hd hb]
      · rw [heapGet_set_ne _ _ _ _ (by omega), heapGet_append_self h _ [], hd]
      · rw [heapGet_set_self _ _ _ (by simp; omega),
          dget_dset_ne _ _ _ _ (by decide), dget_dset_same]
      · rw [heapGet_set_self _ _ _ (by simp; omega), dget_dset_same]
      · intro k hk
        rw [heapGet_set_ne _ _ _ _ (by omega), heapGet_append_self h _ []]

/-- Witness heap for the combiner claims: one parsed document
`{"permissions": {"allow": ["a"]}}` at address 0, its permissions dict at
address 1. -/
def cexHeap : Heap :=
  [[("permissions", PyVal.dictRef 1)], [("allow", PyVal.list [PyVal.str "a"])]]

/-- Witness for C2 at the concrete one-document input. -/
theorem C2_merge_fields_witness :
    ∃ h' q,
      merge_settings_files cexHeap [0] = Except.ok (h', cexHeap.length) ∧
      dget (heapGet h' cexHeap.length) "permissions" = some (PyVal.dictRef q) ∧
      dget (heapGet h' q) "allow" =
        some (PyVal.list ((merge_permission_lists
          (([0] : List Nat).filterMap (permList cexHeap "allow"))).map PyVal.str)) ∧
      dget (heapGet h' q) "deny" =
        some (PyVal.list ((merge_permission_lists
          (([0] : List Nat).filterMap (permList cexHeap "deny"))).map PyVal.str)) ∧
      ∀ k, k ≠ "permissions" →
        dget (heapGet h' cexHeap.length) k = dget (heapGet cexHeap 0) k :=
  C2_merge_fields cexHeap 0 [] (by decide) (by decide)

/- ---------------------------------------------------------------------------
C3: side effects of the combiner on its input documents.
--------------------------------------------------------------------------- -/

/-- The heap after `merge_settings_files cexHeap [0]`: the input document's
own permissions dict at address 1 has been updated in place. -/
def cexHeapAfter : Heap :=
  [[("permissions", PyVal.dictRef 1)],
   [("allow", PyVal.list [PyVal.str "a"]), ("deny", PyVal.list [])],
   [("permissions", PyVal.dictRef 1)]]

/-- Claim C3 counterexample: on the single parsed input document
`{"permissions": {"allow": ["a"]}}` the call succeeds, but the document's
nested permissions mapping (heap address 1) is changed by the call - it
gains a `deny` entry - because `merged = settings_list[0].copy()` is a
shallow copy whose `permissions` value aliases the input's dict.  This
refutes "every input document, including ... its permissions mapping ...,
is unchanged after the call". -/
theorem C3_counterexample :
    merge_settings_files cexHeap [0] = Except.ok (cexHeapAfter, 2) ∧
    heapGet cexHeapAfter 1 ≠ heapGet cexHeap 1 := by
  constructor
  · rfl
  · intro hEq
    rw [show heapGet cexHeapAfter 1 =
          [("allow", PyVal.list [PyVal.str "a"]), ("deny", PyVal.list [])] from rfl,
        show heapGet cexHeap 1 = [("allow", PyVal.list [PyVal.str "a"])] from rfl] at hEq
    simp at hEq

/-- Claim C3 as amended: `merge_settings_files` leaves every pre-existing
heap object unchanged - in particular every document other than the first,
and every top-level field of the first - except the first document's
`permissions` mapping when it has one: that mapping (aliased by the shallow
copy) is updated in place, its `allow` and `deny` entries overwritten with
the merged lists and its other entries kept. -/
theorem C3_merge_frame (h : Heap) (a0 : Nat) (rest : List Nat)
    (hval : ∀ a ∈ a0 :: rest, a < h.length)
    (hwf : ∀ a ∈ a0 :: rest, wfDoc h a = true) :
    ∃ h',
      merge_settings_files h (a0 :: rest) = Except.ok (h', h.length) ∧
      (∀ a, a < h.length →
        dget (heapGet h a0) "permissions" ≠ some (PyVal.dictRef a) →
        heapGet h' a = heapGet h a) ∧
      (∀ p0, dget (heapGet h a0) "permissions" = some (PyVal.dictRef p0) →
        heapGet h' p0 =
          dset (dset (heapGet h p0) "allow"
              (PyVal.list ((merge_permission_lists
                ((a0 :: rest).filterMap (permList h "allow"))).map PyVal.str)))
            "deny"
            (PyVal.list ((merge_permission_lists
              ((a0 :: rest).filterMap (permList h "deny"))).map PyVal.str))) := by
  have hwa0 := hwf a0 (List.mem_cons_self a0 rest)
  cases hd : dget (heapGet h a0) "permissions" with
  | none =>
    refine ⟨((h ++ [heapGet h a0] ++ [[]]).set h.length
        (dset (heapGet h a0) "permissions" (PyVal.dictRef (h.length + 1)))).set
          (h.length + 1)
          [("allow", PyVal.list ((merge_permission_lists
              ((a0 :: rest).filterMap (permList h "allow"))).map PyVal.str)),
           ("deny", PyVal.list ((merge_permission_lists
             ((a0 :: rest).filterMap (permList h "deny"))).map PyVal.str))],
      ?_, ?_, ?_⟩
    · show Except.ok (merge_core h a0 (a0 :: rest)) = _
      rw [merge_core_eq_absent h a0 (a0 :: rest) hd]
    · intro a ha _
      rw [heapGet_set_ne _ _ _ _ (by omega), heapGet_set_ne _ _ _ _ (by omega),
        heapGet_append_lt _ _ a (by simp; omega), heapGet_append_lt _ _ a ha]
    · intro p0 hp0
      exact absurd hp0 (by simp)
  | some v =>
    cases v with
    | str s => exact absurd (by simpa only [wfDoc, hd] using hwa0) Bool.false_ne_true
    | int n => exact absurd (by simpa only [wfDoc, hd] using hwa0) Bool.false_ne_true
    | bool b => exact absurd (by simpa only [wfDoc, hd] using hwa0) Bool.false_ne_true
    | null => exact absurd (by simpa only [wfDoc, hd] using hwa0) Bool.false_ne_true
    | list l => exact absurd (by simpa only [wfDoc, hd] using hwa0) Bool.false_ne_true
    | dictRef p0 =>
      have hb : p0 < h.length := by
        simp only [wfDoc, hd, Bool.and_eq_true, decide_eq_true_eq] at hwa0
        exact hwa0.1.1
      refine ⟨(h ++ [heapGet h a0]).set p0
          (dset (dset (heapGet h p0) "allow"
              (PyVal.list ((merge_permission_lists
                ((a0 :: rest).filterMap (permList h "allow"))).map PyVal.str)))
            "deny"
            (PyVal.list ((merge_permission_lists
              ((a0 :: rest).filterMap (permList h "deny"))).map PyVal.str))),
        ?_, ?_, ?_⟩
      · show Except.ok (merge_core h a0 (a0 :: rest)) = _
        rw [merge_core_eq_present h a0 (a0 :: rest) p0 hd hb]
      · intro a ha hne
        have hap : p0 ≠ a := fun hEq => hne (by rw [hEq])
        rw [heapGet_set_ne _ _ _ _ hap, heapGet_append_lt _ _ a ha]
      · intro p0' hp0'
        have hEq : p0 = p0' := by
          injection hp0' with hv
          injection hv
        subst hEq
        rw [heapGet_set_self _ _ _ (by simp; omega)]

/-- Witness for the amended C3 at the concrete one-document input. -/
theorem C3_merge_frame_witness :
    ∃ h',
      merge_settings_files cexHeap [0] = Except.ok (h', cexHeap.length) ∧
      (∀ a, a < cexHeap.length →
        dget (heapGet cexHeap 0) "permissions" ≠ some (PyVal.dictRef a) →
        heapGet h' a = heapGet cexHeap a) ∧
      (∀ p0, dget (heapGet cexHeap 0) "permissions" = some (PyVal.dictRef p0) →
        heapGet h' p0 =
          dset (dset (heapGet cexHeap p0) "allow"
              (PyVal.list ((merge_permission_lists
                (([0] : List Nat).filterMap (permList cexHeap "allow"))).map PyVal.str)))
            "deny"
            (PyVal.list ((merge_permission_lists
              (([0] : List Nat).filterMap (permList cexHeap "deny"))).map PyVal.str))) :=
  C3_merge_frame cexHeap 0 [] (by decide) (by decide)

/- ---------------------------------------------------------------------------
C5: the bullet-line matcher against the spec description.
--------------------------------------------------------------------------- -/

theorem mem_takeWhile_pred {α : Type} {p : α → Bool} :
    ∀ (l : List α) (x : α), x ∈ l.takeWhile p → p x = true := by
  intro l
  induction l with
  | nil => intro x hx; simp [List.takeWhile] at hx
  | cons a t ih =>
    intro x hx
    cases hpa : p a with
    | true =>
      rw [List.takeWhile_cons, hpa] at hx
      rcases List.mem_cons.1 hx with rfl | hx
      · exact hpa
      · exact ih x hx
    | false =>
      rw [List.takeWhile_cons, hpa] at hx
      simp at hx

theorem dropWhile_head_pred_false {α : Type} {p : α → Bool} :
    ∀ (l r : List α) (b : α), l.dropWhile p = b :: r → p b = false := by
  intro l
  induction l with
  | nil => intro r b hb; simp [List.dropWhile] at hb
  | cons a t ih =>
    intro r b hb
    cases hpa : p a with
    | true =>
      rw [List.dropWhile_cons, hpa] at hb
      exact ih r b (by simpa using hb)
    | false =>
      rw [List.dropWhile_cons, hpa] at hb
      simp at hb
      rw [← hb.1]
      exact hpa

theorem takeWhile_append_sat {α : Type} {p : α → Bool} (ws : List α) (b : α) (r : List α)
    (hws : ∀ x ∈ ws, p x = true) (hb : p b = false) :
    (ws ++ b :: r).takeWhile p = ws := by
  induction ws with
  | nil => simp [List.takeWhile_cons, hb]
  | cons a t ih =>
    have hpa : p a = true := hws a (List.mem_cons_self a t)
    rw [List.cons_append, List.takeWhile_cons, hpa]
    rw [ih (fun x hx => hws x (List.mem_cons_of_mem a hx))]
    simp

theorem dropWhile_append_sat {α : Type} {p : α → Bool} (ws : List α) (b : α) (r : List α)
    (hws : ∀ x ∈ ws, p x = true) (hb : p b = false) :
    (ws ++ b :: r).dropWhile p = b :: r := by
  induction ws with
  | nil => simp [List.dropWhile_cons, hb]
  | cons a t ih =>
    have hpa : p a = true := hws a (List.mem_cons_self a t)
    rw [List.cons_append, List.dropWhile_cons, hpa]
    rw [ih (fun x hx => hws x (List.mem_cons_of_mem a hx))]
    simp

/-- The spec's description of a matching bullet line (section 4.3): after
trimming, an asterisk or hyphen, one or more whitespace characters, a
backquote, one or more non-backquote characters (the capture), a closing
backquote, with anything after it ignored. -/
def SpecBulletLine (line : String) (c : String) : Prop :=
  ∃ (m : Char) (ws cap tail : List Char),
    pyStrip line.data = m :: (ws ++ backquote :: (cap ++ backquote :: tail)) ∧
    (m = '*' ∨ m = '-') ∧
    ws ≠ [] ∧ (∀ x ∈ ws, isPySpace x = true) ∧
    cap ≠ [] ∧ (∀ x ∈ cap, x ≠ backquote) ∧
    c = String.mk cap

theorem matchBullet_eq_some_iff (s : List Char) (c : String) :
    matchBullet s = some c ↔
      ∃ (m : Char) (ws cap tail : List Char),
        s = m :: (ws ++ backquote :: (cap ++ backquote :: tail)) ∧
        (m = '*' ∨ m = '-') ∧
        ws ≠ [] ∧ (∀ x ∈ ws, isPySpace x = true) ∧
        cap ≠ [] ∧ (∀ x ∈ cap, x ≠ backquote) ∧
        c = String.mk cap := by
  constructor
  · intro hm
    cases s with
    | nil => simp [matchBullet] at hm
    | cons c0 rest =>
      rw [matchBullet] at hm
      by_cases h0 : c0 = '*' ∨ c0 = '-'
      case neg => rw [if_neg h0] at hm; exact absurd hm (by simp)
      rw [if_pos h0] at hm
      by_cases hws : (rest.takeWhile isPySpace).isEmpty
      case pos => rw [if_pos hws] at hm; exact absurd hm (by simp)
      rw [if_neg hws] at hm
      cases hdw : rest.dropWhile isPySpace with
      | nil => rw [hdw] at hm; exact absurd hm (by simp)
      | cons c1 rest2 =>
        rw [hdw] at hm
        dsimp only [] at hm
        by_cases hc1 : c1 = backquote
        case neg => rw [if_neg hc1] at hm; exact absurd hm (by simp)
        rw [if_pos hc1] at hm
        cases hdw2 : rest2.dropWhile (fun ch => ¬ ch = backquote) with
        | nil => rw [hdw2] at hm; exact absurd hm (by simp)
        | cons c2 tail2 =>
          rw [hdw2] at hm
          by_cases hcap : (rest2.takeWhile (fun ch => ¬ ch = backquote)).isEmpty
          case pos => rw [if_pos hcap] at hm; exact absurd hm (by simp)
          rw [if_neg hcap] at hm
          have hc : c = String.mk (rest2.takeWhile (fun ch => ¬ ch = backquote)) := by
            cases hm; rfl
          have hc2 : c2 = backquote := by
            have := dropWhile_head_pred_false rest2 tail2 c2 hdw2
            simpa using this
          refine ⟨c0, rest.takeWhile isPySpace,
            rest2.takeWhile (fun ch => ¬ ch = backquote), tail2, ?_, h0, ?_, ?_, ?_, ?_, hc⟩
          · have hrest : rest = rest.takeWhile isPySpace ++ (c1 :: rest2) := by
              rw [← hdw]
              exact (List.takeWhile_append_dropWhile _ _).symm
            have hrest2 : rest2 =
                rest2.takeWhile (fun ch => ¬ ch = backquote) ++ (c2 :: tail2) := by
              rw [← hdw2]
              exact (List.takeWhile_append_dropWhile _ _).symm
            rw [hc1] at hrest
            rw [hc2] at hrest2
            rw [List.cons_eq_cons]
            refine ⟨rfl, ?_⟩
            conv_lhs => rw [hrest, hrest2]
          · intro hnil; rw [hnil] at hws; exact hws rfl
          · intro x hx; exact mem_takeWhile_pred rest x hx
          · intro hnil; rw [hnil] at hcap; exact hcap rfl
          · intro x hx
            have := mem_takeWhile_pred rest2 x hx
            simpa using this
  · rintro ⟨m, ws, cap, tail, hs, hmk, hwsne, hwssat, hcapne, hcapsat, hc⟩
    subst hs
    subst hc
    rw [matchBullet, if_pos hmk]
    have hbqws : isPySpace backquote = false := by decide
    have htw : (ws ++ backquote :: (cap ++ backquote :: tail)).takeWhile isPySpace = ws :=
      takeWhile_append_sat ws backquote _ hwssat hbqws
    have hdw : (ws ++ backquote :: (cap ++ backquote :: tail)).dropWhile isPySpace =
        backquote :: (cap ++ backquote :: tail) :=
      dropWhile_append_sat ws backquote _ hwssat hbqws
    have hwsempty : ws.isEmpty = false := by
      cases ws with
      | nil => exact absurd rfl hwsne
      | cons a t => rfl
    rw [htw, hwsempty, hdw]
    simp only [Bool.false_eq_true, if_false]
    try dsimp only []
    simp only [if_true]
    have hcapsat' : ∀ x ∈ cap, (fun ch => (¬ ch = backquote : Bool)) x = true := by
      intro x hx
      simpa using hcapsat x hx
    have hbqcap : (fun ch => (¬ ch = backquote : Bool)) backquote = false := by simp
    have htw2 : (cap ++ backquote :: tail).takeWhile (fun ch => ¬ ch = backquote) = cap :=
      takeWhile_append_sat cap backquote tail hcapsat' hbqcap
    have hdw2 : (cap ++ backquote :: tail).dropWhile (fun ch => ¬ ch = backquote) =
        backquote :: tail :=
      dropWhile_append_sat cap backquote tail hcapsat' hbqcap
    have hcapempty : cap.isEmpty = false := by
      cases cap with
      | nil => exact absurd rfl hcapne
      | cons a t => rfl
    rw [hdw2]
    try dsimp only []
    rw [htw2, hcapempty]
    simp

theorem bulletCapture_iff_spec (line : String) (c : String) :
    bulletCapture line = some c ↔ SpecBulletLine line c :=
  matchBullet_eq_some_iff (pyStrip line.data) c

/-- Claim C5: a line contributes a capture exactly when, after trimming
leading and trailing whitespace, it consists of an asterisk or hyphen,
whitespace, a backquote, a non-empty run of non-backquote characters (the
capture) and a closing backquote, trailing content ignored
(`SpecBulletLine`); every other line is skipped; the pipeline keeps the
captures in line order with first occurrences only - no duplicates, exactly
the captures of the matching lines, ordered by first occurrence in the
line-ordered capture list `parse_markdown_file lines`; and on the
three-line input it yields the two patterns. -/
theorem C5_extractor_pipeline (lines : List String) (line : String) (c : String) :
    (bulletCapture line = some c ↔ SpecBulletLine line c) ∧
    (extract_pipeline lines).Nodup ∧
    (c ∈ extract_pipeline lines ↔ ∃ l ∈ lines, SpecBulletLine l c) ∧
    (extract_pipeline lines).Pairwise
      (fun a b => firstIdx a (parse_markdown_file lines) <
        firstIdx b (parse_markdown_file lines)) ∧
    extract_pipeline ["* `Bash(npm run test:*)`", "not a bullet", "- `Bash(npm run lint)`"] =
      ["Bash(npm run test:*)", "Bash(npm run lint)"] := by
  refine ⟨bulletCapture_iff_spec line c, nodup_dedupGo _ _, ?_,
    pairwise_firstIdx_dedupGo _ _, by decide⟩
  rw [extract_pipeline, mem_dedupGo]
  simp only [List.not_mem_nil, not_false_iff, and_true, parse_markdown_file,
    List.mem_filterMap, bulletCapture_iff_spec]

/- ---------------------------------------------------------------------------
C6, C7, C10: the Document Emitter and the round trip.
--------------------------------------------------------------------------- -/

theorem asStrings_map_str (l : List String) :
    asStrings (l.map PyVal.str) = some l := by
  induction l with
  | nil => rfl
  | cons a t ih => simp [asStrings, asString, ih]

/-- Claim C6: on a list of pairwise-distinct patterns the Document Emitter
returns a document whose only top-level field is `permissions`, with
`allow` the given list verbatim and `deny` empty. -/
theorem C6_emitter_verbatim (ps : List String) (hnd : ps.Nodup) :
    create_permissions_json [] ps =
      ([[("allow", PyVal.list (ps.map PyVal.str)), ("deny", PyVal.list [])],
        [("permissions", PyVal.dictRef 0)]], 1) := by
  have hu : (dedupGo ([] : List String) [] ps).2 = ps :=
    dedupGo_of_nodup ps [] (by simp) hnd
  simp [create_permissions_json, hu]

/-- Witness for C6 at the concrete input `["a", "b"]`. -/
theorem C6_emitter_verbatim_witness :
    (["a", "b"] : List String).Nodup ∧
    create_permissions_json [] ["a", "b"] =
      ([[("allow", PyVal.list ((["a", "b"] : List String).map PyVal.str)),
         ("deny", PyVal.list [])],
        [("permissions", PyVal.dictRef 0)]], 1) :=
  ⟨by decide, C6_emitter_verbatim ["a", "b"] (by decide)⟩

/-- Claim C10: unconditionally - duplicates allowed in the input - the
Document Emitter returns a document whose only top-level field is
`permissions`, whose `deny` is empty and whose `allow` is the
first-occurrence deduplication of the input: duplicate-free, with exactly
the input's members, ordered by first occurrence. -/
theorem C10_emitter_invariant (ps : List String) :
    ∃ u : List String,
      create_permissions_json [] ps =
        ([[("allow", PyVal.list (u.map PyVal.str)), ("deny", PyVal.list [])],
          [("permissions", PyVal.dictRef 0)]], 1) ∧
      u.Nodup ∧ (∀ s' : String, s' ∈ u ↔ s' ∈ ps) ∧
      u.Pairwise (fun a b => firstIdx a ps < firstIdx b ps) := by
  refine ⟨(dedupGo [] [] ps).2, by simp [create_permissions_json],
    nodup_dedupGo _ _, ?_, pairwise_firstIdx_dedupGo _ _⟩
  intro s'
  rw [mem_dedupGo]
  simp

/-- Claim C7 (round trip): the document emitted for a duplicate-free pattern
list, fed as the sole input to the Settings Combiner, yields an equivalent
document: `permissions.allow` is the same list and `permissions.deny` is
empty. -/
theorem C7_round_trip (ps : List String) (hnd : ps.Nodup) :
    ∃ h' q,
      merge_settings_files (create_permissions_json [] ps).1
          [(create_permissions_json [] ps).2] = Except.ok (h', 2) ∧
      dget (heapGet h' 2) "permissions" = some (PyVal.dictRef q) ∧
      dget (heapGet h' q) "allow" = some (PyVal.list (ps.map PyVal.str)) ∧
      dget (heapGet h' q) "deny" = some (PyVal.list []) := by
  have hu : (dedupGo ([] : List String) [] ps).2 = ps :=
    dedupGo_of_nodup ps [] (by simp) hnd
  have hcr : create_permissions_json [] ps =
      ([[("allow", PyVal.list (ps.map PyVal.str)), ("deny", PyVal.list [])],
        [("permissions", PyVal.dictRef 0)]], 1) := by
    simp [create_permissions_json, hu]
  rw [show (create_permissions_json [] ps).1 =
      [[("allow", PyVal.list (ps.map PyVal.str)), ("deny", PyVal.list [])],
       [("permissions", PyVal.dictRef 0)]] from by rw [hcr],
    show (create_permissions_json [] ps).2 = 1 from by rw [hcr]]
  have hpl : permList
      [[("allow", PyVal.list (ps.map PyVal.str)), ("deny", PyVal.list [])],
       [("permissions", PyVal.dictRef 0)]] "allow" 1 = some ps := by
    simp [permList, heapGet, dget, asStrings_map_str]
  have hpl2 : permList
      [[("allow", PyVal.list (ps.map PyVal.str)), ("deny", PyVal.list [])],
       [("permissions", PyVal.dictRef 0)]] "deny" 1 = some [] := by
    simp [permList, heapGet, dget, asStrings]
  have hmps : merge_permission_lists [ps] = ps := by
    rw [merge_permission_lists_eq_dedup]
    simpa using dedupGo_of_nodup ps [] (by simp) hnd
  have hmerge := merge_core_eq_present
    [[("allow", PyVal.list (ps.map PyVal.str)), ("deny", PyVal.list [])],
     [("permissions", PyVal.dictRef 0)]] 1 [1] 0 rfl (by simp)
  have hA : List.filterMap (permList
      [[("allow", PyVal.list (ps.map PyVal.str)), ("deny", PyVal.list [])],
       [("permissions", PyVal.dictRef 0)]] "allow") [1] = [ps] := by
    simp [List.filterMap_cons, hpl]
  have hB : List.filterMap (permList
      [[("allow", PyVal.list (ps.map PyVal.str)), ("deny", PyVal.list [])],
       [("permissions", PyVal.dictRef 0)]] "deny") [1] = [[]] := by
    simp [List.filterMap_cons, hpl2]
  rw [hA, hB, hmps, show merge_permission_lists [([] : List String)] = [] from rfl] at hmerge
  refine ⟨(merge_core
      [[("allow", PyVal.list (ps.map PyVal.str)), ("deny", PyVal.list [])],
       [("permissions", PyVal.dictRef 0)]] 1 [1]).1, 0, ?_, ?_, ?_, ?_⟩
  · rfl
  · rw [hmerge]
    rw [heapGet_set_ne _ _ _ _ (by omega)]
    rfl
  · rw [hmerge, heapGet_set_self _ _ _ (by simp), dget_dset_ne _ _ _ _ (by decide),
      dget_dset_same]
  · rw [hmerge, heapGet_set_self _ _ _ (by simp), dget_dset_same]
    rfl


/-- Witness for C7 at the concrete input `["a", "b"]`. -/
theorem C7_round_trip_witness :
    (["a", "b"] : List String).Nodup ∧
    ∃ h' q,
      merge_settings_files (create_permissions_json [] ["a", "b"]).1
          [(create_permissions_json [] ["a", "b"]).2] = Except.ok (h', 2) ∧
      dget (heapGet h' 2) "permissions" = some (PyVal.dictRef q) ∧
      dget (heapGet h' q) "allow" =
        some (PyVal.list ((["a", "b"] : List String).map PyVal.str)) ∧
      dget (heapGet h' q) "deny" = some (PyVal.list []) :=
  ⟨by decide, C7_round_trip ["a", "b"] (by decide)⟩

/- ---------------------------------------------------------------------------
C8: backup-name selection.
--------------------------------------------------------------------------- -/

theorem find_backup_spec (output : String) (ex : String → Bool) :
    ∀ fuel idx c, find_backup output ex fuel idx = some c →
      ex c = false ∧ ∃ k, idx ≤ k ∧
        c = output ++ ".bak." ++ toString k ∧
        ∀ j, idx ≤ j → j < k → ex (output ++ ".bak." ++ toString j) = true := by
  intro fuel
  induction fuel with
  | zero => intro idx c hc; simp [find_backup] at hc
  | succ fuel ih =>
    intro idx c hc
    rw [find_backup] at hc
    by_cases hex : ex (output ++ ".bak." ++ toString idx) = true
    · rw [if_pos hex] at hc
      obtain ⟨hfree, k, hk1, hk2, hall⟩ := ih (idx + 1) c hc
      refine ⟨hfree, k, by omega, hk2, ?_⟩
      intro j hj1 hj2
      by_cases hji : j = idx
      · subst hji; exact hex
      · exact hall j (by omega) hj2
    · rw [if_neg hex] at hc
      cases hc
      refine ⟨by simpa using hex, idx, le_refl idx, rfl, ?_⟩
      intro j hj1 hj2
      omega

/-- Claim C8: when the output path exists and neither `--no-backup` nor the
force alias was given, the name the existing file is copied to is the first
of `<path>.bak`, `<path>.bak.1`, `<path>.bak.2`, ... that does not already
exist (so no existing backup file is ever overwritten). -/
theorem C8_backup_first_free (output : String) (ex : String → Bool)
    (no_backup force : Bool) (fuel : Nat) (c : String)
    (hguard : wants_backup (ex output) no_backup force = true)
    (hc : choose_backup output ex fuel = some c) :
    ex c = false ∧ ∃ k, c = backup_candidate output k ∧
      ∀ j, j < k → ex (backup_candidate output j) = true := by
  rw [choose_backup] at hc
  by_cases hb : ex (output ++ ".bak") = true
  · rw [if_pos hb] at hc
    obtain ⟨hfree, k, hk1, hk2, hall⟩ := find_backup_spec output ex fuel 1 c hc
    obtain ⟨k', rfl⟩ : ∃ k', k = k' + 1 := ⟨k - 1, by omega⟩
    refine ⟨hfree, k' + 1, ?_, ?_⟩
    · rw [backup_candidate]
      exact hk2
    · intro j hj
      cases j with
      | zero => exact hb
      | succ j' =>
        rw [backup_candidate]
        exact hall (j' + 1) (by omega) (by omega)
  · rw [if_neg hb] at hc
    cases hc
    refine ⟨by simpa using hb, 0, rfl, ?_⟩
    intro j hj
    omega

/-- A sample filesystem for the C8 witness: the output file and its plain
`.bak` backup both exist. -/
def exSample : String → Bool :=
  fun s => s == "out.json" || s == "out.json.bak"

/-- Witness for C8: with `out.json` and `out.json.bak` existing, the chosen
name is `out.json.bak.1`, which is free and preceded only by taken names. -/
theorem C8_backup_first_free_witness :
    wants_backup (exSample "out.json") false false = true ∧
    choose_backup "out.json" exSample 3 = some "out.json.bak.1" ∧
    (exSample "out.json.bak.1" = false ∧
      ∃ k, "out.json.bak.1" = backup_candidate "out.json" k ∧
        ∀ j, j < k → exSample (backup_candidate "out.json" j) = true) :=
  ⟨by decide, by decide,
    C8_backup_first_free "out.json" exSample false false 3 "out.json.bak.1"
      (by decide) (by decide)⟩

/- ---------------------------------------------------------------------------
C9: written file contents.
--------------------------------------------------------------------------- -/

/-- Claim C9 counterexample: the batch extractor writes the serialization
with nothing appended (`json.dump` adds no newline), so its written content
is not the serialized document followed by a trailing newline: already at
the serialized text `"x"` the content differs. -/
theorem C9_counterexample : extractor_file_content "x" ≠ "x" ++ "\n" := by
  decide

/-- Claim C9 as amended: the combiner writes the serialized document followed
by one trailing newline, while the batch extractor writes the serialized
document verbatim with no trailing newline appended; the two contents always
differ. -/
theorem C9_write_contents (s : String) :
    combiner_file_content s = s ++ "\n" ∧
    extractor_file_content s = s ∧
    combiner_file_content s ≠ extractor_file_content s := by
  refine ⟨rfl, rfl, ?_⟩
  intro hEq
  have h3 := congrArg String.length hEq
  simp only [combiner_file_content, extractor_file_content, String.length_append,
    show ("\n" : String).length = 1 from rfl] at h3
  omega

end CCPerms
